import Mathlib

/-!
# Verification of the question-answering orchestration core
  (`app/services/qa_service.py`)

Shallow embedding of the pure algorithmic core of the repository's Q&A
service.  Modelling conventions:

* Python strings are modelled as `List Char` (named `Str` below); only the
  space/whitespace characters that actually occur in the pipeline matter,
  and `Char.isWhitespace` models Python's `str.isspace` / `\s` for them.
* Python floats are modelled as exact rationals (`ℚ`).  All numeric
  literals appearing in the source (`0.05`, `0.1`, `0.2`, `0.3`, `0.7`,
  `0.95`) are modelled by the exact rationals they denote; none of the
  claims under examination hinges on a binary-floating-point boundary
  case, and every concrete input used below is checked to be far from
  such boundaries.
* The Hugging Face question-answering pipeline is an opaque oracle: it is
  modelled as a parameter of type `Oracle` returning, per window, either a
  list of `(answer text, score)` candidates or an error (`Except` models
  the exceptions the real pipeline may raise, which the source catches per
  window).  Model loading (`_load_qa_model`) is likewise a parameter of
  type `Except Str Oracle`: `.error` models an initialization failure.
* The `while` loop of `smart_chunking` is not structurally terminating
  (and, as proved below, actually diverges on some inputs), so it is
  embedded with explicit fuel; `none` means the loop has not finished
  within the given fuel, and a `∀ fuel, … = none` theorem proves genuine
  divergence.
* Python's `sort(key=…, reverse=True)` is a stable descending sort by
  key; it is modelled by a stable insertion sort by the same key.
-/

set_option linter.unusedVariables false

abbrev Str := List Char

/-- Python `\w` (ASCII regime): letters, digits and underscore. -/
def isWordChar (c : Char) : Bool := c.isAlphanum || c = '_'

/-- Python whitespace (`\s`, `str.strip`, `str.split`). -/
def isSpaceChar (c : Char) : Bool := c.isWhitespace

/-- Python `str.lstrip()`. -/
def trimLeft (s : Str) : Str := s.dropWhile isSpaceChar

/-- Python `str.rstrip()`. -/
def trimRight (s : Str) : Str := (s.reverse.dropWhile isSpaceChar).reverse

/-- Python `str.strip()`. -/
def trim (s : Str) : Str := trimRight (trimLeft s)

/-- Python `str.lower()` (ASCII regime). -/
def lowerStr (s : Str) : Str := s.map Char.toLower

/-- Python `sep.join(ws)`: interleave a separator between the pieces. -/
def joinWith (sep : Str) : List Str → Str
  | [] => []
  | [w] => w
  | w :: ws => w ++ sep ++ joinWith sep (ws)

/-- Helper for `splitWs`: accumulates the current word in reverse. -/
def splitWsAux : Str → Str → List Str
  | [], acc => if acc = [] then [] else [acc.reverse]
  | c :: s, acc =>
      if isSpaceChar c then
        if acc = [] then splitWsAux s [] else acc.reverse :: splitWsAux s []
      else splitWsAux s (c :: acc)

/-- Python `str.split()` (no argument): split on whitespace runs, dropping
empty pieces. -/
def splitWs (s : Str) : List Str := splitWsAux s []

/-- Helper for `findWords`: accumulates the current word-char run in
reverse. -/
def findWordsAux : Str → Str → List Str
  | [], acc => if acc = [] then [] else [acc.reverse]
  | c :: s, acc =>
      if isWordChar c then findWordsAux s (c :: acc)
      else if acc = [] then findWordsAux s [] else acc.reverse :: findWordsAux s []

/-- Python `re.findall(r'\w+', s)`: the maximal word-character runs. -/
def findWords (s : Str) : List Str := findWordsAux s []

/-- Python `sub in s` (contiguous substring test). -/
def containsSub (sub s : Str) : Bool :=
  sub.isPrefixOf s ||
    match s with
    | [] => false
    | _ :: r => containsSub sub r

/-- Python `str.split(sep)` for a single-character separator: keeps empty
pieces, `''.split(c) = ['']`. -/
def pySplit (sep : Char) : Str → List Str
  | [] => [[]]
  | c :: s =>
      match pySplit sep s with
      | [] => []
      | w :: ws => if c = sep then [] :: w :: ws else (c :: w) :: ws

/-- Model of a set of strings as a duplicate-free list: keeps the last
occurrence of each element (membership and cardinality — all the source
uses — agree with Python's `set`). -/
def dedupWords : List Str → List Str
  | [] => []
  | w :: ws => if w ∈ ws then dedupWords ws else w :: dedupWords ws

/-- Python `s.find(sub)` scan: first index `≥ i` at which `sub` occurs in
the remaining text `t`, else `-1`. -/
def pyFindAux (sub : Str) : Nat → Str → Int
  | i, [] => if sub.isPrefixOf [] then (i : Int) else -1
  | i, c :: r => if sub.isPrefixOf (c :: r) then (i : Int) else pyFindAux sub (i + 1) r

/-- Python `s.find(sub)`: index of the first occurrence, or `-1`. -/
def pyFind (s sub : Str) : Int := pyFindAux sub 0 s

/-- Python `s.rfind(c)` for a single character: index of the last
occurrence, or `-1`. -/
def rfindChar (c : Char) (s : Str) : Int :=
  match s.reverse.findIdx? (· = c) with
  | some i => (s.length : Int) - 1 - (i : Int)
  | none => -1

/-- Normalize a Python slice index (`None`-free form as used in the
source): negative indices count from the end, then clamp to `[0, len]`. -/
def pyIndex (len : Nat) (i : Int) : Nat :=
  if i < 0 then (max 0 (i + (len : Int))).toNat else min i.toNat len

/-- Python slice `l[a:b]` for integer (possibly negative) bounds. -/
def pySlice {α : Type} (l : List α) (a b : Int) : List α :=
  (l.take (pyIndex l.length b)).drop (pyIndex l.length a)

/-- Python `re.sub(r'\s+', ' ', ·)`: collapse every whitespace run to a single
space.  The Bool flag records whether the previous character was
whitespace (i.e. whether we are inside a run that already emitted its
space). -/
def collapseWsAux : Bool → Str → Str
  | _, [] => []
  | prevWs, c :: s =>
      if isSpaceChar c then
        if prevWs then collapseWsAux true s else ' ' :: collapseWsAux true s
      else c :: collapseWsAux false s

def collapseWs (s : Str) : Str := collapseWsAux false s

/-! ## The repeated-word regex

`re.sub(r'\b(\w+)\1+\b', r'\1', text)` — source line 70.  The pattern
matches, at a word boundary, a word-character run `w` immediately followed
(with no separator) by one or more further copies of `w`, ending at a word
boundary, and replaces the whole match by a single copy of `w`.  The
matcher below reproduces the leftmost/greedy backtracking semantics of
Python's `re` for exactly this pattern. -/

/-- Length of the maximal word-character run at the head. -/
def wordRunLen : Str → Nat
  | [] => 0
  | c :: s => if isWordChar c then wordRunLen s + 1 else 0

/-- Number of additional adjacent full copies of `w` at the head of `s`
(greedy `\1+` minus the capture itself).  Fueled; callers pass
`fuel = s.length` and `w ≠ []`, which make the fuel sufficient. -/
def countReps : Nat → Str → Str → Nat
  | 0, _, _ => 0
  | fuel + 1, w, s =>
      if w.isPrefixOf s then countReps fuel w (s.drop w.length) + 1 else 0

/-- The `\b` assertion holds just after `n` matched word characters iff the next
character is absent or not a word character. -/
def boundaryAfter (s : Str) (n : Nat) : Bool :=
  match s.drop n with
  | [] => true
  | c :: _ => !isWordChar c

/-- Try the pattern body at the start of `s` (a position where `\b` holds
and a word char begins).  Greedy `(\w+)`: capture lengths from `L` down
to 1.  For a fixed capture `w`, `\1+` takes all `m ≥ 1` adjacent copies;
any backtrack to fewer copies puts the next position at the start of a
further copy of `w` — a word character — so `\b` fails there, hence only
the maximal `m` can complete the match.  Returns the capture and the total
matched length. -/
def tryRepeat : Nat → Str → Option (Str × Nat)
  | 0, _ => none
  | L + 1, s =>
      let w := s.take (L + 1)
      let m := countReps s.length w (s.drop (L + 1))
      if 1 ≤ m ∧ boundaryAfter s ((L + 1) * (m + 1)) then
        some (w, (L + 1) * (m + 1))
      else tryRepeat L s

/-- Scan of `re.sub(r'\b(\w+)\1+\b', r'\1', ·)`: at each position where a
word run starts after a non-word position, try the pattern; on a match,
emit the capture and resume after the matched text.  Fueled; fuel
`s.length` is sufficient since every step consumes at least one input
character. -/
def removeRepeatsAux : Nat → Bool → Str → Str
  | 0, _, s => s
  | _ + 1, _, [] => []
  | fuel + 1, prevWord, c :: s =>
      if isWordChar c ∧ ¬prevWord then
        match tryRepeat (wordRunLen (c :: s)) (c :: s) with
        | some (w, total) => w ++ removeRepeatsAux fuel true ((c :: s).drop total)
        | none => c :: removeRepeatsAux fuel true s
      else c :: removeRepeatsAux fuel (isWordChar c) s

def removeRepeats (s : Str) : Str := removeRepeatsAux s.length false s

/-- Characters kept by `re.sub(r'[^\w\s.,!?;:()-]', '', ·)` — source
line 71. -/
def allowedChar (c : Char) : Bool :=
  isWordChar c || isSpaceChar c ||
    c ∈ ['.', ',', '!', '?', ';', ':', '(', ')', '-']

/-- Python `sentence[0].upper() + sentence[1:]` (for length 1, `upper()` of the
whole string — the same thing). -/
def capitalizeFirst : Str → Str
  | [] => []
  | c :: r => c.toUpper :: r

/-- Source `preprocess_text` (lines 61–82): whitespace collapse, the
repeated-word regex, the character allow-list, then sentence
recapitalization. -/
def preprocess_text (text : Str) : Str :=
  if text = [] then []
  else
    let t := collapseWs (trim text)
    let t := removeRepeats t
    let t := t.filter allowedChar
    let sentences := pySplit '.' t
    let processed := sentences.filterMap fun sentence =>
      let sentence := trim sentence
      if sentence = [] then none else some (capitalizeFirst sentence)
    joinWith ('.' :: ' ' :: []) processed

/-- Source `preprocess_question` (lines 84–99). -/
def preprocess_question (question : Str) : Str :=
  if question = [] then []
  else
    let question := trim question
    let question := if question.getLast? = some '?' then question else question ++ ['?']
    if question = [] then question else capitalizeFirst question

/-- The hedge-phrase list of source line 174 (the first phrase contains an
apostrophe, built here as `Char.ofNat 39`). -/
def generic_phrases : List Str :=
  [ "i don".toList ++ [Char.ofNat 39] ++ "t know".toList,
    "not sure".toList, "unclear".toList, "maybe".toList, "possibly".toList ]

/-- Source `calculate_answer_quality` (lines 155–182).  The `context`
parameter is accepted and unused, exactly as in the source.  Scores are
exact rationals; `0.1 = 1/10`, `0.2 = 1/5`, `0.3 = 3/10`. -/
def calculate_answer_quality (answer question context : Str) : ℚ :=
  if answer = [] ∨ (trim answer).length < 3 then 0
  else
    let score : ℚ := 0
    let score := if answer.length < 10 then score - 1/5 else score
    let question_words := dedupWords (findWords (lowerStr question))
    let answer_words := findWords (lowerStr answer)
    let keyword_overlap := (question_words.filter (fun w => w ∈ answer_words)).length
    let score := if 0 < keyword_overlap then score + (keyword_overlap : ℚ) * (1/10) else score
    let score :=
      if generic_phrases.any (fun phrase => containsSub phrase (lowerStr answer)) then
        score - 3/10
      else score
    let score :=
      if answer.getLast? = some '.' ∨ answer.getLast? = some '!' then score + 1/10 else score
    max 0 (min 1 score)

/-! ## Window segmenter (`smart_chunking`, lines 101–153)

The `while` loop is embedded with explicit fuel (`none` = the loop has not
terminated within the fuel).  `start` is an `Int`, as in Python, where
`start = end - overlap` may in principle go negative; slices use Python
slice semantics (`pySlice`).  The comparison
`sentence_end > len(chunk_text) * 0.7` is modelled exactly as
`10 * sentence_end > 7 * len`. -/

/-- The stop-word set of source line 124 (computed and unused there, kept
for fidelity). -/
def chunking_stop_words : List Str :=
  ["what", "when", "where", "who", "why", "how", "is", "are", "was",
   "were", "the", "a", "an"].map String.toList

def chunk_loop (words : List Str) (max_length overlap : Nat) :
    Nat → Int → List Str → Option (List Str)
  | 0, _, _ => none
  | fuel + 1, start, chunks =>
      if start < (words.length : Int) then
        let e := min (start + (max_length : Int)) (words.length : Int)
        let chunk_words := pySlice words start e
        let chunk_text := joinWith [' '] chunk_words
        let p :=
          if e < (words.length : Int) then
            let last_period := rfindChar '.' chunk_text
            let last_exclamation := rfindChar '!' chunk_text
            let last_question := rfindChar '?' chunk_text
            let sentence_end := max (max last_period last_exclamation) last_question
            if sentence_end * 10 > (chunk_text.length : Int) * 7 then
              let ct := chunk_text.take (sentence_end + 1).toNat
              (ct, start + ((splitWs ct).length : Int))
            else (chunk_text, e)
          else (chunk_text, e)
        let chunks := chunks ++ [p.1]
        if (words.length : Int) ≤ p.2 then some chunks
        else chunk_loop words max_length overlap fuel (p.2 - (overlap : Int)) chunks
      else some chunks

/-- Source `smart_chunking` (lines 101–153); configuration defaults are
`max_length = 350`, `overlap = 75`.  `question_words` is computed and
never used, as in the source. -/
def smart_chunking (fuel : Nat) (text question : Str)
    (max_length overlap : Nat) : Option (List Str) :=
  let words := splitWs text
  if words.length ≤ max_length then some [text]
  else
    let _question_words :=
      (dedupWords (splitWs (lowerStr question))).filter (· ∉ chunking_stop_words)
    chunk_loop words max_length overlap fuel 0 []

/-- Finalizer `post_process_answer` step 1 (lines 340–342): split on `'.'`; when
there is more than one piece and the trimmed last piece is under 10
characters, drop it and re-append a trailing `'.'`. -/
def drop_trailing_fragment (answer : Str) : Str :=
  let sentences := pySplit '.' answer
  match sentences.getLast? with
  | some last =>
      if 1 < sentences.length ∧ (trim last).length < 10 then
        joinWith ['.'] sentences.dropLast ++ ['.']
      else answer
  | none => answer

/-- Finalizer `post_process_answer` step 2 (lines 345–346): uppercase the first
character when it is not already uppercase. -/
def capitalize_step (answer : Str) : Str :=
  match answer with
  | [] => []
  | c :: r => if ¬c.isUpper then c.toUpper :: r else c :: r

/-- Finalizer `post_process_answer` step 3 (lines 349–350): append `'.'` unless the
text already ends in `'.'`, `'!'` or `'?'`. -/
def punctuate_step (answer : Str) : Str :=
  if answer ≠ [] ∧
      ¬(answer.getLast? = some '.' ∨ answer.getLast? = some '!' ∨
        answer.getLast? = some '?') then
    answer ++ ['.']
  else answer

/-- Source `post_process_answer` (lines 334–352): the three steps above,
then a final `strip()`. -/
def post_process_answer (answer question : Str) : Str :=
  if answer = [] then answer
  else trim (punctuate_step (capitalize_step (drop_trailing_fragment answer)))

/-! ## Answer aggregation and finalization (`answer_question`, lines 184–332) -/

/-- The candidate record built at source lines 266–272. -/
structure Candidate where
  answer : Str
  confidence : ℚ
  original_confidence : ℚ
  source_chunk : Str
  chunk_index : Nat
deriving DecidableEq

/-- The dictionary returned by `answer_question` (answer, confidence,
source text). -/
structure ResultT where
  answer : Str
  confidence : ℚ
  source_text : Str
deriving DecidableEq

/-- The opaque span-extraction oracle: given the (preprocessed) question
and one window, returns candidate `(text, score)` pairs, or raises
(modelled by `Except.error`), which the source catches per window. -/
abbrev Oracle := Str → Str → Except Str (List (Str × ℚ))

/-- Fixed message of lines 219–223 (empty transcript or question after
preprocessing). -/
def input_error_result : ResultT :=
  { answer := "I couldn".toList ++ [Char.ofNat 39] ++
      "t process your question. Please make sure both the transcript and question are valid.".toList,
    confidence := 0, source_text := [] }

/-- Fixed message of lines 282–287 (no qualifying candidate in any
window). -/
def no_answer_result : ResultT :=
  { answer := "I couldn".toList ++ [Char.ofNat 39] ++
      "t find an answer to your question in the transcript. Try asking about specific topics mentioned in the conversation.".toList,
    confidence := 0, source_text := [] }

/-- Fixed message of lines 294–299 (best candidate's raw score below the
confidence threshold). -/
def low_confidence_result : ResultT :=
  { answer := "I found some potential answers but I".toList ++ [Char.ofNat 39] ++
      "m not confident about them. Could you try rephrasing your question more specifically?".toList,
    confidence := 0, source_text := [] }

/-- Fixed message of lines 328–332 (top-level `except` handler). -/
def error_result : ResultT :=
  { answer := "Sorry, I encountered an error while processing your question. Please try again.".toList,
    confidence := 0, source_text := [] }

/-- Candidate collection, lines 241–280: one oracle call per chunk, a
failing chunk contributes no candidates; answers are stripped, kept when
at least 3 characters long, and carry both the raw score and the
quality-adjusted score (line 264: `adjusted = confidence + quality`). -/
def collect_answers (oracle : Oracle) (question : Str) (chunks : List Str) :
    List Candidate :=
  (chunks.enum.map fun ic =>
    match oracle question ic.2 with
    | .error _ => []
    | .ok results =>
        results.filterMap fun r =>
          let answer := trim r.1
          if 3 ≤ answer.length then
            some { answer := answer,
                   confidence := r.2 + calculate_answer_quality answer question ic.2,
                   original_confidence := r.2,
                   source_chunk := ic.2,
                   chunk_index := ic.1 }
          else none).flatten

/-- Stable descending insertion by adjusted confidence: `x` passes over
every earlier element with a `≥` key, so equal keys keep discovery
order — the behavior of Python's stable `sort(key=…, reverse=True)`. -/
def insertByConf (x : Candidate) : List Candidate → List Candidate
  | [] => [x]
  | y :: ys =>
      if y.confidence < x.confidence then x :: y :: ys else y :: insertByConf x ys

/-- Python `all_answers.sort(key=lambda x: x['confidence'], reverse=True)` —
source line 290. -/
def sortCandidates : List Candidate → List Candidate
  | [] => []
  | x :: xs => insertByConf x (sortCandidates xs)

/-- Source-excerpt extraction, lines 304–308: `find` the finalized answer
in its source chunk (−1 when absent), widen by 50 characters each side,
clamp with `max`/`min`, slice, strip. -/
def prepare_source (chunk final_answer : Str) : Str :=
  let source_start := max 0 (pyFind chunk final_answer - 50)
  let source_end :=
    min (chunk.length : Int) (pyFind chunk final_answer + (final_answer.length : Int) + 50)
  trim (pySlice chunk source_start source_end)

/-- Selection, confidence gate and finalization, lines 289–320.  The `[]`
arm is unreachable from `answer_question`, which returns
`no_answer_result` before sorting when no candidate survived. -/
def select_and_finalize (all_answers : List Candidate) (question : Str)
    (confidence_threshold : ℚ) : ResultT :=
  match sortCandidates all_answers with
  | [] => no_answer_result
  | best :: _ =>
      if best.original_confidence < confidence_threshold then low_confidence_result
      else
        let final_answer := post_process_answer best.answer question
        { answer := final_answer,
          confidence := min best.original_confidence (19/20),
          source_text := prepare_source best.source_chunk final_answer }

/-- Source `answer_question` (lines 184–332) with the defaults of
`app/config.py`: `QA_CONFIDENCE_THRESHOLD = 0.05 = 1/20`,
`QA_CHUNK_SIZE = 350`, `QA_CHUNK_OVERLAP = 75`.  `load` models
`_load_qa_model()` (its failure is caught by the top-level handler and
becomes `error_result`); `chunk_fuel` is the fuel for the `smart_chunking`
loop, and the `none` result models that loop's divergence (the source
would not return).  Every other code path returns a `ResultT`. -/
def answer_question (load : Except Str Oracle) (transcript question : Str)
    (chunk_fuel : Nat) : Option ResultT :=
  match load with
  | .error _ => some error_result
  | .ok oracle =>
      let transcript := preprocess_text transcript
      let question := preprocess_question question
      if transcript = [] ∨ question = [] then some input_error_result
      else
        match smart_chunking chunk_fuel transcript question 350 75 with
        | none => none
        | some chunks =>
            let all_answers := collect_answers oracle question chunks
            if all_answers = [] then some no_answer_result
            else some (select_and_finalize all_answers question (1/20))

/-- The spec's notion of removing the overlap regions: keep the first
window whole and drop the first `overlap` words of every later window,
then concatenate. -/
def reconstructWindows (overlap : Nat) : List (List Str) → List Str
  | [] => []
  | w :: ws => w ++ (ws.map (List.drop overlap)).flatten

/-- A concrete candidate whose raw score is below the default threshold
(used to instantiate the confidence-gate theorem). -/
def cand_low : Candidate :=
  { answer := "abcd".toList, confidence := 1/2, original_confidence := 1/100,
    source_chunk := "abcd efgh".toList, chunk_index := 0 }

/-! ## Supporting lemmas -/

theorem flatten_map_nil {α β : Type} (l : List α) :
    (l.map fun _ => ([] : List β)).flatten = [] := by
  induction l with
  | nil => rfl
  | cons x xs ih => simp [ih]

theorem insertByConf_perm (x : Candidate) (l : List Candidate) :
    List.Perm (insertByConf x l) (x :: l) := by
  induction l with
  | nil => exact List.Perm.refl _
  | cons y ys ih =>
      rw [insertByConf]
      split
      · exact List.Perm.refl _
      · exact (ih.cons y).trans (List.Perm.swap x y ys)

theorem sortCandidates_perm (l : List Candidate) : List.Perm (sortCandidates l) l := by
  induction l with
  | nil => exact List.Perm.refl _
  | cons x xs ih => exact (insertByConf_perm x (sortCandidates xs)).trans (ih.cons x)

theorem chunk_loop_a_b_diverges :
    ∀ fuel acc, chunk_loop [['a'], ['b']] 1 1 fuel 0 acc = none := by
  intro fuel
  induction fuel with
  | zero => intro acc; rfl
  | succ n ih =>
      intro acc
      have hstep : chunk_loop [['a'], ['b']] 1 1 (n + 1) 0 acc =
          chunk_loop [['a'], ['b']] 1 1 n 0 (acc ++ [['a']]) := rfl
      rw [hstep]
      exact ih (acc ++ [['a']])

/-! ## Claims -/

/-- C1.  The claim says `segment` always terminates with the advance
clamped to at least one word.  The source (`qa_service.py` line 151,
`start = end - overlap`) has no clamp: for the two-word text `"a b"` with
`max_length = 1` and `overlap = 1`, the loop re-enters with `start = 0`
forever, so the fueled embedding returns `none` for every fuel — the loop
genuinely diverges. -/
theorem smart_chunking_no_clamp_diverges :
    ∀ fuel, smart_chunking fuel ("a b".toList) [] 1 1 = none := by
  intro fuel
  have hw : splitWs ("a b".toList) = [['a'], ['b']] := by decide
  simp only [smart_chunking, hw]
  norm_num
  exact chunk_loop_a_b_diverges fuel []

/-- C10.  The top-level `except` handler (lines 322–332): a model-loading
failure is caught and becomes the fixed generic-failure result with
confidence 0; a per-window oracle failure is caught inside the loop
(lines 274–280) and contributes no candidates instead of propagating.  The
embedding of `answer_question` is a total function into `Option ResultT`
(no error type), so no modelled fault escapes to the caller. -/
theorem top_level_errors_become_results :
    (∀ e transcript question fuel,
        answer_question (.error e) transcript question fuel = some error_result ∧
        error_result.confidence = 0) ∧
    (∀ msg question chunks,
        collect_answers (fun _ _ => .error msg) question chunks = []) := by
  constructor
  · intro e transcript question fuel
    exact ⟨rfl, rfl⟩
  · intro msg question chunks
    exact flatten_map_nil chunks.enum

/-- C9.  If the transcript or the question is empty after preprocessing,
`answer_question` returns the fixed input-error result (confidence 0,
empty excerpt) without consulting the oracle (lines 218–223); in
particular this holds for an empty transcript and any question.  (The
preprocessed question is never whitespace-only-but-nonempty — it always
ends in `?` — so "empty or blank after normalization" coincides with this
hypothesis.) -/
theorem input_error_on_empty_inputs :
    (∀ (oracle : Oracle) transcript question fuel,
        preprocess_text transcript = [] ∨ preprocess_question question = [] →
        answer_question (.ok oracle) transcript question fuel =
          some input_error_result ∧ input_error_result.confidence = 0) ∧
    (∀ (oracle : Oracle) question fuel,
        answer_question (.ok oracle) [] question fuel = some input_error_result) := by
  constructor
  · intro oracle transcript question fuel h
    refine ⟨?_, rfl⟩
    simp only [answer_question]
    rw [if_pos h]
  · intro oracle question fuel
    have h : preprocess_text ([] : Str) = [] := rfl
    simp only [answer_question]
    rw [if_pos (Or.inl h)]

theorem input_error_on_empty_inputs_witness :
    (preprocess_text (" ".toList) = [] ∨ preprocess_question ("hi".toList) = []) ∧
    answer_question (.ok fun _ _ => .ok []) (" ".toList) ("hi".toList) 0 =
      some input_error_result :=
  ⟨Or.inl (by decide),
    (input_error_on_empty_inputs.1 _ _ _ 0 (Or.inl (by decide))).1⟩

/-- C6.  The claim (and the source's own comment, line 69: "Fix common
transcription issues … Remove repeated words") says the normalizer turns
`"the the"` into `"the"`.  The regex actually used,
`\b(\w+)\1+\b`, requires the repetition to be immediately adjacent with no
separator: it leaves `"the the"` intact (the full normalizer only
recapitalizes it to `"The the"`), while collapsing the concatenated
`"thethe"` to `"the"`. -/
theorem repeated_word_removal_misses_spaced :
    preprocess_text ("the the".toList) = "The the".toList ∧
    removeRepeats ("the the".toList) = "the the".toList ∧
    removeRepeats ("thethe".toList) = "the".toList := by decide

/-- C5.  The delta returned by `calculate_answer_quality` is clamped to
`[0, 1]` (line 182: `max(0.0, min(1.0, score))`, and the short-answer
early return yields 0); the clamp applies to the delta alone, and the
adjusted score `raw + delta` formed at line 264 can exceed 1. -/
theorem quality_delta_in_unit_interval :
    (∀ answer question context,
        0 ≤ calculate_answer_quality answer question context ∧
        calculate_answer_quality answer question context ≤ 1) ∧
    (∃ (raw : ℚ) (answer question context : Str), 0 ≤ raw ∧ raw ≤ 1 ∧
        1 < raw + calculate_answer_quality answer question context) := by
  constructor
  · intro answer question context
    rw [calculate_answer_quality]
    split
    · norm_num
    · exact ⟨le_max_left _ _, max_le (by norm_num) (min_le_left _ _)⟩
  · refine ⟨9/10, "What about the thing.".toList, "What about the thing?".toList, [], ?_⟩
    with_unfolding_all decide

/-- C4 counterexample.  In the scenario (oracle returns only
`("maybe", 0.8)`), the claim asserts a quality delta of −0.3 and an
adjusted score of 0.5.  At the concrete scenario instance used below the
computed delta is 0 (the raw sum −0.2 − 0.3 = −0.5 is clamped at 0 by
line 182), so it is not −0.3, and the adjusted score 0.8 + 0 is
not 0.5. -/
theorem maybe_scenario_delta_not_neg :
    calculate_answer_quality ("maybe".toList) ("Will it rain?".toList)
      ("It might rain tomorrow".toList) ≠ -(3/10) ∧
    (4/5 : ℚ) + calculate_answer_quality ("maybe".toList) ("Will it rain?".toList)
      ("It might rain tomorrow".toList) ≠ 1/2 := by
  with_unfolding_all decide

/-- C4 amended.  In the `("maybe", 0.8)` scenario the quality delta is 0
(clamped from −0.5), the adjusted score is 0.8, and the pipeline still
answers `"Maybe."` with confidence 0.8 — the raw score 0.8 passes the 0.05
gate independently of the adjustment. -/
theorem maybe_scenario_amended :
    calculate_answer_quality ("maybe".toList) ("Will it rain?".toList)
      ("It might rain tomorrow".toList) = 0 ∧
    (4/5 : ℚ) + calculate_answer_quality ("maybe".toList) ("Will it rain?".toList)
      ("It might rain tomorrow".toList) = 4/5 ∧
    answer_question (.ok fun _ _ => .ok [("maybe".toList, 4/5)])
      ("it might rain tomorrow".toList) ("Will it rain".toList) 30 =
      some { answer := "Maybe.".toList, confidence := 4/5,
             source_text := "It might rain tomorrow".toList } := by
  with_unfolding_all decide

/-- C7 counterexample.  The claim says that when the finalized answer does
not occur verbatim in its source window the excerpt is the empty string.
In the source, `str.find` returns −1 and lines 305–308 then slice
`chunk[0 : min(len, -1 + len(final) + 50)]`: for the window
`"It might rain tomorrow"` and finalized answer `"Maybe."` (not a
substring), the excerpt is the whole window, not `""`. -/
theorem excerpt_on_miss_not_empty :
    containsSub ("Maybe.".toList) ("It might rain tomorrow".toList) = false ∧
    prepare_source ("It might rain tomorrow".toList) ("Maybe.".toList) =
      "It might rain tomorrow".toList ∧
    prepare_source ("It might rain tomorrow".toList) ("Maybe.".toList) ≠ [] := by
  decide

/-- C7 amended.  When the finalized answer is absent from the window
(`find = -1`), the returned excerpt is the trimmed prefix of the window of
length `min(window length, finalized length + 49)` — in general nonempty,
not the empty string. -/
theorem excerpt_on_miss_is_window_prefix (chunk final_answer : Str)
    (h : pyFind chunk final_answer = -1) :
    prepare_source chunk final_answer =
      trim (chunk.take (min chunk.length (final_answer.length + 49))) := by
  rw [prepare_source, pySlice, h]
  have h0 : pyIndex chunk.length (max 0 (-1 - 50)) = 0 := by
    rw [pyIndex]; norm_num
  have h1 : (-1 : Int) + (final_answer.length : Int) + 50 =
      ((final_answer.length + 49 : Nat) : Int) := by push_cast; ring
  have h2 : pyIndex chunk.length
      (min (chunk.length : Int) ((final_answer.length + 49 : Nat) : Int)) =
      min chunk.length (final_answer.length + 49) := by
    rw [← Nat.cast_min, pyIndex, if_neg (by omega)]
    simp only [Int.toNat_natCast]
    omega
  rw [h1, h0, h2, List.drop_zero]

theorem excerpt_on_miss_witness :
    pyFind ("ab".toList) ("zz".toList) = -1 ∧
    prepare_source ("ab".toList) ("zz".toList) =
      trim (("ab".toList).take (min ("ab".toList).length (("zz".toList).length + 49))) :=
  ⟨by decide, excerpt_on_miss_is_window_prefix _ _ (by decide)⟩

/-- C3.  The confidence gate of lines 289–299 compares the selected best
candidate's raw (`original_confidence`) score — never the adjusted one —
against the threshold and returns the fixed low-confidence result when it
is below; consequently, when every candidate's raw score is below the
threshold, no answer is returned regardless of the adjusted-score
ranking. -/
theorem confidence_gate_uses_raw_score :
    ∀ (all_answers : List Candidate) question threshold,
      all_answers ≠ [] →
      (∀ best rest, sortCandidates all_answers = best :: rest →
          best.original_confidence < threshold →
          select_and_finalize all_answers question threshold = low_confidence_result) ∧
      ((∀ c ∈ all_answers, c.original_confidence < threshold) →
          select_and_finalize all_answers question threshold = low_confidence_result) := by
  intro all_answers question threshold hne
  constructor
  · intro best rest hsort hlt
    rw [select_and_finalize, hsort]
    simp only [if_pos hlt]
  · intro hall
    cases hsort : sortCandidates all_answers with
    | nil =>
        have hp := sortCandidates_perm all_answers
        rw [hsort] at hp
        exact absurd hp.symm.eq_nil hne
    | cons best rest =>
        have hmem0 : best ∈ sortCandidates all_answers := by
          rw [hsort]; exact List.mem_cons_self best rest
        have hmem : best ∈ all_answers :=
          (sortCandidates_perm all_answers).mem_iff.mp hmem0
        rw [select_and_finalize, hsort]
        simp only [if_pos (hall best hmem)]

theorem confidence_gate_witness :
    ([cand_low] ≠ [] ∧ ∀ c ∈ [cand_low], c.original_confidence < (1/20 : ℚ)) ∧
    select_and_finalize [cand_low] [] (1/20) = low_confidence_result :=
  ⟨⟨by decide, by with_unfolding_all decide⟩,
    (confidence_gate_uses_raw_score [cand_low] [] (1/20) (by decide)).2
      (by with_unfolding_all decide)⟩

theorem char_toNat_bounds_of_isLower (c : Char) (h : c.isLower = true) :
    97 ≤ c.toNat ∧ c.toNat ≤ 122 := by
  rw [Char.isLower] at h
  simp only [Bool.and_eq_true, decide_eq_true_eq] at h
  obtain ⟨h1, h2⟩ := h
  exact ⟨UInt32.le_toNat_of_le (by norm_num) h1, UInt32.toNat_le_of_le (by norm_num) h2⟩

theorem char_toNat_bounds_of_isUpper (c : Char) (h : c.isUpper = true) :
    65 ≤ c.toNat ∧ c.toNat ≤ 90 := by
  rw [Char.isUpper] at h
  simp only [Bool.and_eq_true, decide_eq_true_eq] at h
  obtain ⟨h1, h2⟩ := h
  exact ⟨UInt32.le_toNat_of_le (by norm_num) h1, UInt32.toNat_le_of_le (by norm_num) h2⟩

theorem isUpper_toUpper_of_isLower (c : Char) (h : c.isLower = true) :
    c.toUpper.isUpper = true := by
  obtain ⟨h1, h2⟩ := char_toNat_bounds_of_isLower c h
  simp only [Char.toUpper]
  rw [if_pos (by constructor <;> omega)]
  have hk : 65 ≤ c.toNat - 32 ∧ c.toNat - 32 ≤ 90 := by omega
  generalize c.toNat - 32 = k at hk
  obtain ⟨hk1, hk2⟩ := hk
  interval_cases k <;> decide

theorem head_isUpper_capitalize (c : Char) (r : Str) (h : c.isAlpha = true) :
    ∃ d, (capitalize_step (c :: r)).head? = some d ∧ d.isUpper = true := by
  rw [capitalize_step]
  by_cases hu : c.isUpper = true
  · rw [if_neg (by simp [hu])]
    exact ⟨c, rfl, hu⟩
  · have hl : c.isLower = true := by
      rw [Char.isAlpha, Bool.or_eq_true] at h
      tauto
    rw [if_pos (by simp [hu])]
    exact ⟨c.toUpper, rfl, isUpper_toUpper_of_isLower c hl⟩

theorem pySplit_ne_nil (sep : Char) (a : Str) : pySplit sep a ≠ [] := by
  induction a with
  | nil => simp [pySplit]
  | cons c s ih =>
      cases h : pySplit sep s with
      | nil => exact absurd h ih
      | cons w ws =>
          rw [pySplit, h]
          dsimp only
          split <;> simp

theorem pySplit_head (sep : Char) (a : Str) :
    ∃ ws, pySplit sep a = a.takeWhile (· != sep) :: ws := by
  induction a with
  | nil => exact ⟨[], rfl⟩
  | cons c s ih =>
      obtain ⟨ws, hws⟩ := ih
      by_cases hc : c = sep
      · subst hc
        refine ⟨List.takeWhile (fun x => x != c) s :: ws, ?_⟩
        rw [pySplit, hws]
        simp [List.takeWhile_cons]
      · refine ⟨ws, ?_⟩
        rw [pySplit, hws]
        simp [List.takeWhile_cons, hc]

theorem joinWith_head (sep : Str) (w : Str) (ws : List Str) :
    ∃ r, joinWith sep (w :: ws) = w ++ r := by
  cases ws with
  | nil => exact ⟨[], by simp [joinWith]⟩
  | cons x xs => exact ⟨sep ++ joinWith sep (x :: xs), by simp [joinWith]⟩

theorem drop_trailing_ne_nil (answer : Str) (h : answer ≠ []) :
    drop_trailing_fragment answer ≠ [] := by
  rw [drop_trailing_fragment]
  split
  · split
    · simp
    · exact h
  · exact h

theorem drop_trailing_head (c : Char) (r0 : Str) (hne : c ≠ '.') :
    (drop_trailing_fragment (c :: r0)).head? = some c := by
  simp only [drop_trailing_fragment]
  split
  · split
    · next hcond =>
        obtain ⟨ws, hws⟩ := pySplit_head '.' (c :: r0)
        have htw : List.takeWhile (fun x => x != '.') (c :: r0) =
            c :: List.takeWhile (fun x => x != '.') r0 := by
          rw [List.takeWhile_cons, if_pos (by simpa using hne)]
        rw [hws] at hcond
        have hws_ne : ws ≠ [] := by
          rcases hcond with ⟨hlen, _⟩
          intro hnil
          rw [hnil] at hlen
          simp at hlen
        rw [hws]
        cases ws with
        | nil => exact absurd rfl hws_ne
        | cons w1 wrest =>
            rw [List.dropLast_cons₂]
            obtain ⟨r2, hr2⟩ := joinWith_head ['.'] _ ((w1 :: wrest).dropLast)
            rw [hr2, htw]
            simp
    · rfl
  · rfl

theorem capitalize_ne_nil (s : Str) (h : s ≠ []) : capitalize_step s ≠ [] := by
  cases s with
  | nil => exact absurd rfl h
  | cons c r => rw [capitalize_step]; split <;> simp

theorem punctuate_ne_nil (s : Str) (h : s ≠ []) : punctuate_step s ≠ [] := by
  rw [punctuate_step]
  split
  · simp
  · exact h

theorem punctuate_head (s : Str) (h : s ≠ []) :
    (punctuate_step s).head? = s.head? := by
  rw [punctuate_step]
  split
  · cases s with
    | nil => exact absurd rfl h
    | cons x xs => simp
  · rfl

theorem punctuate_getLast (s : Str) (h : s ≠ []) :
    ∃ t, (punctuate_step s).getLast? = some t ∧ (t = '.' ∨ t = '!' ∨ t = '?') := by
  rw [punctuate_step]
  split
  · next hcond =>
      refine ⟨'.', ?_, Or.inl rfl⟩
      rw [List.getLast?_append]
      rfl
  · next hcond =>
      have habc : s.getLast? = some '.' ∨ s.getLast? = some '!' ∨ s.getLast? = some '?' := by
        by_contra hno
        exact hcond ⟨h, hno⟩
      rcases habc with h1 | h1 | h1
      · exact ⟨'.', h1, Or.inl rfl⟩
      · exact ⟨'!', h1, Or.inr (Or.inl rfl)⟩
      · exact ⟨'?', h1, Or.inr (Or.inr rfl)⟩

theorem trimRight_eq_self (s : Str) (t : Char) (hl : s.getLast? = some t)
    (ht : isSpaceChar t = false) : trimRight s = s := by
  rw [trimRight]
  cases hr : s.reverse with
  | nil =>
      have hnil : s = [] := by
        have := congrArg List.reverse hr
        simpa using this
      rw [hnil] at hl
      simp at hl
  | cons x xs =>
      have hs : s = xs.reverse ++ [x] := by
        have := congrArg List.reverse hr
        simpa using this
      rw [hs, List.getLast?_concat] at hl
      have hx : x = t := by simpa using hl
      rw [List.dropWhile_cons, if_neg (by simp [hx, ht])]
      rw [← hr, List.reverse_reverse]

theorem trimLeft_getLast (s : Str) (t : Char) (ht : isSpaceChar t = false) :
    ∀ hl : s.getLast? = some t, trimLeft s ≠ [] ∧ (trimLeft s).getLast? = some t := by
  induction s with
  | nil => intro hl; simp at hl
  | cons c r ih =>
      intro hl
      cases r with
      | nil =>
          have hct : c = t := by simpa using hl
          rw [trimLeft, List.dropWhile_cons, if_neg (by simp [hct, ht])]
          exact ⟨by simp, by simpa using hct⟩
      | cons x xs =>
          have hl2 : (x :: xs).getLast? = some t := by
            rwa [List.getLast?_cons_cons] at hl
          by_cases hc : isSpaceChar c = true
          · rw [trimLeft, List.dropWhile_cons, if_pos hc]
            exact ih hl2
          · rw [trimLeft, List.dropWhile_cons, if_neg hc]
            exact ⟨by simp, hl⟩

theorem trim_getLast (s : Str) (t : Char) (hl : s.getLast? = some t)
    (ht : isSpaceChar t = false) :
    trim s ≠ [] ∧ (trim s).getLast? = some t := by
  obtain ⟨h1, h2⟩ := trimLeft_getLast s t ht hl
  rw [trim, trimRight_eq_self (trimLeft s) t h2 ht]
  exact ⟨h1, h2⟩

theorem trim_eq_self_of_ends (c : Char) (r : Str) (t : Char)
    (hc : isSpaceChar c = false) (hl : (c :: r).getLast? = some t)
    (ht : isSpaceChar t = false) : trim (c :: r) = c :: r := by
  have h1 : trimLeft (c :: r) = c :: r := by
    rw [trimLeft, List.dropWhile_cons, if_neg (by simp [hc])]
  rw [trim, h1]
  exact trimRight_eq_self _ t hl ht

/-- C8 counterexample.  The claim says the finalizer output always begins
with an uppercase character.  For the nonempty input `"3 pm"` the output
is `"3 pm."`, whose first character `'3'` is not uppercase (`upper()` does
not change a digit). -/
theorem finalizer_first_char_not_upper :
    post_process_answer ("3 pm".toList) ("q".toList) = "3 pm.".toList ∧
    ("3 pm.".toList).head? = some '3' ∧ Char.isUpper '3' = false := by decide

/-- C8 amended.  For every nonempty input, the finalizer output is
nonempty and ends in `'.'`, `'!'` or `'?'`; and its first character is
uppercase whenever the input's first character is an ASCII letter (the
original claim fails when the input starts with a digit, punctuation or
whitespace, which `upper()` leaves unchanged — see the counterexample). -/
theorem finalizer_terminator_and_capitalization :
    ∀ answer question, answer ≠ [] →
      post_process_answer answer question ≠ [] ∧
      (∃ t, (post_process_answer answer question).getLast? = some t ∧
          (t = '.' ∨ t = '!' ∨ t = '?')) ∧
      (∀ c, answer.head? = some c → c.isAlpha = true →
          ∃ d, (post_process_answer answer question).head? = some d ∧
            d.isUpper = true) := by
  intro answer question hne
  rw [post_process_answer, if_neg hne]
  set s1 := drop_trailing_fragment answer with hs1
  have h1 : s1 ≠ [] := drop_trailing_ne_nil answer hne
  set s2 := capitalize_step s1 with hs2
  have h2 : s2 ≠ [] := capitalize_ne_nil s1 h1
  obtain ⟨t, htl, htv⟩ := punctuate_getLast s2 h2
  have hts : isSpaceChar t = false := by
    rcases htv with h | h | h <;> simp [h, isSpaceChar, Char.isWhitespace]
  have h3 : punctuate_step s2 ≠ [] := punctuate_ne_nil s2 h2
  obtain ⟨hn, hg⟩ := trim_getLast (punctuate_step s2) t htl hts
  refine ⟨hn, ⟨t, hg, htv⟩, ?_⟩
  intro c hc hca
  have hcdot : c ≠ '.' := by
    intro h
    rw [h] at hca
    exact absurd hca (by decide)
  obtain ⟨r0, har⟩ : ∃ r0, answer = c :: r0 := by
    cases answer with
    | nil => simp at hc
    | cons a0 rr =>
        have : a0 = c := by simpa using hc
        exact ⟨rr, by rw [this]⟩
  have hh1 : s1.head? = some c := by
    rw [hs1, har]
    exact drop_trailing_head c r0 hcdot
  cases hs1c : s1 with
  | nil => exact absurd hs1c h1
  | cons c1 r1 =>
      have hc1 : c1 = c := by
        rw [hs1c] at hh1
        simpa using hh1
      subst hc1
      obtain ⟨d, hd, hdu⟩ := head_isUpper_capitalize c1 r1 hca
      have hh2 : s2.head? = some d := by
        rw [hs2, hs1c]
        exact hd
      have hh3 : (punctuate_step s2).head? = some d := by
        rw [punctuate_head s2 h2]
        exact hh2
      have hds : isSpaceChar d = false := by
        obtain ⟨hb1, hb2⟩ := char_toNat_bounds_of_isUpper d hdu
        have h32 : d ≠ ' ' := by intro he; rw [he] at hb1; exact absurd hb1 (by decide)
        have h09 : d ≠ Char.ofNat 9 := by
          intro he; rw [he] at hb1; exact absurd hb1 (by decide)
        have h13 : d ≠ Char.ofNat 13 := by
          intro he; rw [he] at hb1; exact absurd hb1 (by decide)
        have h10 : d ≠ Char.ofNat 10 := by
          intro he; rw [he] at hb1; exact absurd hb1 (by decide)
        simp [isSpaceChar, Char.isWhitespace, h32, h09, h13, h10]
      have htr : trim (punctuate_step s2) = punctuate_step s2 := by
        cases hp : punctuate_step s2 with
        | nil => exact absurd hp h3
        | cons p ps =>
            have hpd : p = d := by
              rw [hp] at hh3
              simpa using hh3
            subst hpd
            rw [hp] at htl
            exact trim_eq_self_of_ends p ps t hds htl hts
      refine ⟨d, ?_, hdu⟩
      rw [htr]
      exact hh3

theorem finalizer_shape_witness :
    ("hello".toList ≠ []) ∧
    (post_process_answer ("hello".toList) ("q".toList) ≠ [] ∧
      (∃ t, (post_process_answer ("hello".toList) ("q".toList)).getLast? = some t ∧
          (t = '.' ∨ t = '!' ∨ t = '?')) ∧
      (∀ c, ("hello".toList).head? = some c → c.isAlpha = true →
          ∃ d, (post_process_answer ("hello".toList) ("q".toList)).head? = some d ∧
            d.isUpper = true)) :=
  ⟨by decide, finalizer_terminator_and_capitalization _ _ (by decide)⟩

theorem splitWsAux_append (w : Str) (hw : ∀ c ∈ w, isSpaceChar c = false) :
    ∀ (s acc : Str), splitWsAux (w ++ s) acc = splitWsAux s (w.reverse ++ acc) := by
  induction w with
  | nil => intro s acc; simp
  | cons c w ih =>
      intro s acc
      have hc : isSpaceChar c = false := hw c (by simp)
      have hw2 : ∀ d ∈ w, isSpaceChar d = false := fun d hd => hw d (by simp [hd])
      rw [List.cons_append, splitWsAux, if_neg (by simp [hc]), ih hw2 s (c :: acc)]
      have hacc : (c :: w).reverse ++ acc = w.reverse ++ (c :: acc) := by simp
      rw [hacc]

theorem splitWsAux_words (s : Str) :
    ∀ acc, (∀ c ∈ acc, isSpaceChar c = false) →
      ∀ w ∈ splitWsAux s acc, w ≠ [] ∧ ∀ c ∈ w, isSpaceChar c = false := by
  induction s with
  | nil =>
      intro acc hacc w hw
      rw [splitWsAux] at hw
      by_cases hacc0 : acc = []
      · rw [if_pos hacc0] at hw
        simp at hw
      · rw [if_neg hacc0] at hw
        simp only [List.mem_singleton] at hw
        subst hw
        refine ⟨by simpa using hacc0, ?_⟩
        intro d hd
        exact hacc d (by simpa using hd)
  | cons c s ih =>
      intro acc hacc w hw
      rw [splitWsAux] at hw
      by_cases hsp : isSpaceChar c = true
      · rw [if_pos hsp] at hw
        by_cases hacc0 : acc = []
        · rw [if_pos hacc0] at hw
          exact ih [] (by simp) w hw
        · rw [if_neg hacc0] at hw
          rcases List.mem_cons.mp hw with h | h
          · subst h
            refine ⟨by simpa using hacc0, ?_⟩
            intro d hd
            exact hacc d (by simpa using hd)
          · exact ih [] (by simp) w h
      · rw [if_neg hsp] at hw
        refine ih (c :: acc) ?_ w hw
        intro d hd
        rcases List.mem_cons.mp hd with h | h
        · subst h
          simpa using hsp
        · exact hacc d h

theorem splitWs_words (s : Str) :
    ∀ w ∈ splitWs s, w ≠ [] ∧ ∀ c ∈ w, isSpaceChar c = false :=
  splitWsAux_words s [] (by simp)

theorem splitWsAux_chars (s : Str) :
    ∀ acc w, w ∈ splitWsAux s acc → ∀ c ∈ w, c ∈ s ∨ c ∈ acc := by
  induction s with
  | nil =>
      intro acc w hw c hc
      rw [splitWsAux] at hw
      by_cases hacc0 : acc = []
      · rw [if_pos hacc0] at hw
        simp at hw
      · rw [if_neg hacc0] at hw
        simp only [List.mem_singleton] at hw
        subst hw
        exact Or.inr (by simpa using hc)
  | cons a s ih =>
      intro acc w hw c hc
      rw [splitWsAux] at hw
      by_cases hsp : isSpaceChar a = true
      · rw [if_pos hsp] at hw
        by_cases hacc0 : acc = []
        · rw [if_pos hacc0] at hw
          rcases ih [] w hw c hc with h | h
          · exact Or.inl (by simp [h])
          · simp at h
        · rw [if_neg hacc0] at hw
          rcases List.mem_cons.mp hw with h | h
          · subst h
            exact Or.inr (by simpa using hc)
          · rcases ih [] w h c hc with h2 | h2
            · exact Or.inl (by simp [h2])
            · simp at h2
      · rw [if_neg hsp] at hw
        rcases ih (a :: acc) w hw c hc with h | h
        · exact Or.inl (by simp [h])
        · rcases List.mem_cons.mp h with h1 | h1
          · exact Or.inl (by simp [h1])
          · exact Or.inr h1

theorem splitWs_chars (s : Str) :
    ∀ w ∈ splitWs s, ∀ c ∈ w, c ∈ s := by
  intro w hw c hc
  rcases splitWsAux_chars s [] w hw c hc with h | h
  · exact h
  · simp at h

theorem splitWs_joinWith (ws : List Str)
    (h : ∀ w ∈ ws, w ≠ [] ∧ ∀ c ∈ w, isSpaceChar c = false) :
    splitWs (joinWith [' '] ws) = ws := by
  induction ws with
  | nil => rfl
  | cons w ws ih =>
      obtain ⟨hw_ne, hw_sp⟩ := h w (by simp)
      have hrest : ∀ v ∈ ws, v ≠ [] ∧ ∀ c ∈ v, isSpaceChar c = false :=
        fun v hv => h v (by simp [hv])
      cases ws with
      | nil =>
          show splitWsAux (joinWith [' '] [w]) [] = [w]
          rw [joinWith]
          have h0 := splitWsAux_append w hw_sp [] []
          simp only [List.append_nil] at h0
          rw [h0, splitWsAux, if_neg (by simpa using hw_ne), List.reverse_reverse]
      | cons x xs =>
          have h0 : joinWith [' '] (w :: x :: xs) =
              w ++ (' ' :: joinWith [' '] (x :: xs)) := by
            rw [joinWith] <;> simp
          rw [splitWs, h0, splitWsAux_append w hw_sp _ []]
          rw [List.append_nil, splitWsAux, if_pos (by decide)]
          rw [if_neg (by simpa using hw_ne), List.reverse_reverse]
          exact congrArg (w :: ·) (ih hrest)

theorem mem_joinWith (ws : List Str) :
    ∀ c, c ∈ joinWith [' '] ws → c = ' ' ∨ ∃ w ∈ ws, c ∈ w := by
  induction ws with
  | nil => intro c hc; simp [joinWith] at hc
  | cons w ws ih =>
      intro c hc
      cases ws with
      | nil =>
          rw [joinWith] at hc
          exact Or.inr ⟨w, by simp, hc⟩
      | cons x xs =>
          have hj : joinWith [' '] (w :: x :: xs) =
              w ++ [' '] ++ joinWith [' '] (x :: xs) := by
            rw [joinWith]
            simp
          rw [hj] at hc
          rcases List.mem_append.mp hc with h1 | h2
          · rcases List.mem_append.mp h1 with ha | hb
            · exact Or.inr ⟨w, by simp, ha⟩
            · exact Or.inl (by simpa using hb)
          · rcases ih c h2 with h | ⟨v, hv, hcv⟩
            · exact Or.inl h
            · exact Or.inr ⟨v, by simp [hv], hcv⟩

theorem rfindChar_eq_neg_one (c : Char) (s : Str) (h : c ∉ s) : rfindChar c s = -1 := by
  rw [rfindChar]
  have hnone : s.reverse.findIdx? (· = c) = none := by
    rw [List.findIdx?_eq_none_iff]
    intro x hx
    simp only [decide_eq_false_iff_not]
    intro he
    exact h (he ▸ List.mem_reverse.mp hx)
  rw [hnone]

theorem pySlice_natCast {α : Type} (l : List α) (a b : Nat) :
    pySlice l (a : Int) (b : Int) = (l.take b).drop a := by
  rw [pySlice]
  have ha : pyIndex l.length (a : Int) = min a l.length := by
    rw [pyIndex, if_neg (by omega)]
    simp
  have hb : pyIndex l.length (b : Int) = min b l.length := by
    rw [pyIndex, if_neg (by omega)]
    simp
  rw [ha, hb]
  have h1 : l.take (min b l.length) = l.take b := by
    rcases le_total b l.length with hbl | hbl
    · rw [min_eq_left hbl]
    · rw [min_eq_right hbl, List.take_length, List.take_of_length_le hbl]
  rw [h1]
  rcases le_total a l.length with hal | hal
  · rw [min_eq_left hal]
  · rw [min_eq_right hal]
    rw [List.drop_eq_nil_of_le, List.drop_eq_nil_of_le]
    · exact le_trans (by simp [List.length_take]) hal
    · simp [List.length_take]

theorem slice_glue {α : Type} (l : List α) (m e : Nat) (hme : m ≤ e)
    (hel : e ≤ l.length) : (l.take e).drop m ++ l.drop e = l.drop m := by
  conv_rhs => rw [← List.take_append_drop e l]
  rw [List.drop_append_eq_append_drop]
  have h0 : m - (l.take e).length = 0 := by
    rw [List.length_take]
    omega
  rw [h0, List.drop_zero]

theorem chunk_loop_reconstruct (words : List Str) (max_length overlap : Nat)
    (hwords : ∀ w ∈ words, w ≠ [] ∧ ∀ c ∈ w, isSpaceChar c = false)
    (hterm : ∀ w ∈ words, ∀ c ∈ w, c ≠ '.' ∧ c ≠ '!' ∧ c ≠ '?')
    (hov : overlap < max_length) :
    ∀ fuel s acc, s < words.length → words.length - s ≤ fuel →
      ∃ out, chunk_loop words max_length overlap fuel (s : Int) acc = some (acc ++ out) ∧
        out ≠ [] ∧
        ((out.map fun ct => (splitWs ct).drop overlap).flatten =
          words.drop (s + overlap)) ∧
        reconstructWindows overlap (out.map splitWs) = words.drop s := by
  intro fuel
  induction fuel with
  | zero =>
      intro s acc hs hf
      omega
  | succ fuel ih =>
      intro s acc hs hf
      have hsl : (s : Int) < (words.length : Int) := by exact_mod_cast hs
      have hemin : min ((s : Int) + (max_length : Int)) ((words.length : Int)) =
          ((min (s + max_length) words.length : Nat) : Int) := by
        push_cast
        rfl
      set eN := min (s + max_length) words.length with heN
      have heNle : eN ≤ words.length := by omega
      have hslice : pySlice words ((s : Nat) : Int) ((eN : Nat) : Int) =
          (words.take eN).drop s := pySlice_natCast words s eN
      set cw := (words.take eN).drop s with hcw
      set ct := joinWith [' '] cw with hct
      have hcw_sub : ∀ w ∈ cw, w ∈ words := by
        intro w hw
        rw [hcw] at hw
        exact List.mem_of_mem_take (List.mem_of_mem_drop hw)
      have hcw_props : ∀ w ∈ cw, w ≠ [] ∧ ∀ c ∈ w, isSpaceChar c = false :=
        fun w hw => hwords w (hcw_sub w hw)
      have hsplit_ct : splitWs ct = cw := splitWs_joinWith cw hcw_props
      have hnot : ∀ d : Char, d = '.' ∨ d = '!' ∨ d = '?' → d ∉ ct := by
        intro d hd hmem
        rcases mem_joinWith cw d hmem with h | ⟨w, hw, hcv⟩
        · rcases hd with h1 | h1 | h1 <;> (subst h1; simp at h)
        · have h2 := hterm w (hcw_sub w hw) d hcv
          rcases hd with h1 | h1 | h1 <;> (subst h1; tauto)
      have hmax : max (max (rfindChar '.' ct) (rfindChar '!' ct)) (rfindChar '?' ct)
          = -1 := by
        rw [rfindChar_eq_neg_one '.' ct (hnot '.' (Or.inl rfl)),
          rfindChar_eq_neg_one '!' ct (hnot '!' (Or.inr (Or.inl rfl))),
          rfindChar_eq_neg_one '?' ct (hnot '?' (Or.inr (Or.inr rfl)))]
        decide
      have hcond : ¬((-1 : Int) * 10 > (ct.length : Int) * 7) := by omega
      simp only [chunk_loop]
      rw [if_pos hsl, hemin, hslice, hmax, if_neg hcond, ite_self]
      dsimp only
      by_cases hlast : words.length ≤ eN
      · have heq : eN = words.length := by omega
        rw [if_pos (show ((words.length : Nat) : Int) ≤ ((eN : Nat) : Int) by
          exact_mod_cast hlast)]
        refine ⟨[ct], rfl, by simp, ?_, ?_⟩
        · rw [List.map_cons, List.map_nil, List.flatten_cons, List.flatten_nil,
            List.append_nil, hsplit_ct, hcw, heq, List.take_length,
            List.drop_drop]
        · rw [List.map_cons, List.map_nil, reconstructWindows, List.map_nil,
            List.flatten_nil, List.append_nil, hsplit_ct, hcw, heq,
            List.take_length]
      · have heqe : eN = s + max_length := by omega
        have hovN : overlap < eN := by omega
        rw [if_neg (show ¬ ((words.length : Nat) : Int) ≤ ((eN : Nat) : Int) by
          exact_mod_cast hlast)]
        have hcast : ((eN : Nat) : Int) - ((overlap : Nat) : Int) =
            (((eN - overlap : Nat)) : Int) :=
          (Nat.cast_sub (le_of_lt hovN)).symm
        rw [hcast]
        have hs2 : eN - overlap < words.length := by omega
        have hf2 : words.length - (eN - overlap) ≤ fuel := by omega
        obtain ⟨out, hloop, hne2, hflat, hrecon⟩ := ih (eN - overlap) (acc ++ [ct]) hs2 hf2
        refine ⟨ct :: out, ?_, by simp, ?_, ?_⟩
        · rw [hloop]
          simp
        · rw [List.map_cons, List.flatten_cons, hsplit_ct, hflat]
          have hofl : eN - overlap + overlap = eN := by omega
          rw [hofl]
          have hdd : cw.drop overlap = (words.take eN).drop (s + overlap) := by
            rw [hcw, List.drop_drop]
          rw [hdd]
          exact slice_glue words (s + overlap) eN (by omega) heNle
        · rw [List.map_cons, reconstructWindows, hsplit_ct]
          have hmm : (out.map splitWs).map (List.drop overlap) =
              out.map fun c2 => (splitWs c2).drop overlap := by
            rw [List.map_map]
            rfl
          rw [hmm, hflat]
          have hofl : eN - overlap + overlap = eN := by omega
          rw [hofl, hcw]
          exact slice_glue words s eN (by omega) heNle

/-- C2 counterexample.  The claim says that for every text with more
words than `maxWords` the windows reconstruct the original word sequence.
When a sentence terminator occurs inside a word, the sentence-boundary
trimming of lines 135–144 cuts the window mid-word and recomputes the
consumed word count as if the whole word had been consumed: for
`"aa bb cc dd x.y ff"` with `max_length = 5`, `overlap = 0` the windows
are `["aa bb cc dd x.", "ff"]` — the tail `"y"` of the word `"x.y"` is
dropped, so the reconstruction misses it. -/
theorem smart_chunking_reconstruction_fails_midword :
    smart_chunking 10 ("aa bb cc dd x.y ff".toList) [] 5 0 =
      some ["aa bb cc dd x.".toList, "ff".toList] ∧
    reconstructWindows 0 ((["aa bb cc dd x.".toList, "ff".toList]).map splitWs) ≠
      splitWs ("aa bb cc dd x.y ff".toList) := by decide

/-- C2 amended.  For every text containing no sentence-terminator
characters (`'.'`, `'!'`, `'?'`) — so that the mid-word trimming of the
counterexample cannot trigger — and `overlapWords < maxWords` (required
for termination, see the C1 divergence), with word count exceeding
`maxWords`: the segmenter terminates and the windows' word sequences,
after dropping the first `overlapWords` words of every window except the
first, concatenate to exactly the original word sequence. -/
theorem smart_chunking_reconstructs (text question : Str)
    (max_length overlap fuel : Nat)
    (hov : overlap < max_length)
    (hterm : ∀ c ∈ text, c ≠ '.' ∧ c ≠ '!' ∧ c ≠ '?')
    (hlen : max_length < (splitWs text).length)
    (hfuel : (splitWs text).length ≤ fuel) :
    ∃ chunks, smart_chunking fuel text question max_length overlap = some chunks ∧
      chunks ≠ [] ∧
      reconstructWindows overlap (chunks.map splitWs) = splitWs text := by
  have hwords := splitWs_words text
  have hterm2 : ∀ w ∈ splitWs text, ∀ c ∈ w, c ≠ '.' ∧ c ≠ '!' ∧ c ≠ '?' :=
    fun w hw c hc => hterm c (splitWs_chars text w hw c hc)
  have h0 : 0 < (splitWs text).length := by omega
  obtain ⟨out, hloop, hne, hflat, hrecon⟩ :=
    chunk_loop_reconstruct (splitWs text) max_length overlap hwords hterm2 hov
      fuel 0 [] h0 (by omega)
  refine ⟨out, ?_, hne, ?_⟩
  · simp only [smart_chunking]
    rw [if_neg (by omega)]
    simpa using hloop
  · simpa using hrecon

theorem smart_chunking_reconstructs_witness :
    ((1 : Nat) < 2 ∧
      (∀ c ∈ ("aa bb cc dd ee ff".toList), c ≠ '.' ∧ c ≠ '!' ∧ c ≠ '?') ∧
      2 < (splitWs ("aa bb cc dd ee ff".toList)).length ∧
      (splitWs ("aa bb cc dd ee ff".toList)).length ≤ 6) ∧
    ∃ chunks, smart_chunking 6 ("aa bb cc dd ee ff".toList) [] 2 1 = some chunks ∧
      chunks ≠ [] ∧
      reconstructWindows 1 (chunks.map splitWs) =
        splitWs ("aa bb cc dd ee ff".toList) :=
  ⟨⟨by decide, by decide, by decide, by decide⟩,
    smart_chunking_reconstructs ("aa bb cc dd ee ff".toList) [] 2 1 6
      (by decide) (by decide) (by decide) (by decide)⟩
